import Mathlib

/-!
Shallow embedding of the retrieval engine of the `resume-agent` repository
(src/src/qaLib.ts and src/src/buildIndex.ts): chunk records, domain
classification, ensure-term derivation, the retrieval pipeline
(filter / score / stable sort / ensure-term promotion / dedup / truncate /
citation assignment), the answer-routing policy, vector normalization and
the index-loading shim.

Conventions of the embedding:
* JavaScript floating-point scores are idealized as rationals (`ℚ`); the
  cosine-similarity computation itself (which goes through the external
  embedding API and `Math.sqrt`) is abstracted as a score function
  `RecordT → ℚ` passed to the retrieval pipeline, since every retrieval
  property in scope is independent of the concrete score values.
* Vector normalization (`normalize` in both source files) is modelled over
  the real numbers, with `Real.sqrt` for `Math.sqrt`.
* JavaScript strings are modelled as Lean `String`s; `toLowerCase` and
  `includes` are modelled character-wise (`Char.toLower` covers the basic
  latin range, which is all the fixed keyword tables use).
-/

namespace ResumeAgent

/-- The `Domain` union type of qaLib.ts: `"resume" | "personal"`. -/
inductive Domain
  | resume
  | personal
deriving DecidableEq, Repr

/-- Return type of `classifyQuestion` in qaLib.ts: `Domain | "both" | "unknown"`. -/
inductive Hint
  | resume
  | personal
  | both
  | unknown
deriving DecidableEq, Repr

/-- The `RecordT` type of qaLib.ts: one indexed chunk.  The optional
`domain` field is `Option Domain` exactly as in the source (`domain?: Domain`);
embedding components are idealized as rationals. -/
structure RecordT where
  id : Nat
  text : String
  source : String
  domain : Option Domain
  embedding : List ℚ
deriving DecidableEq, Repr

/-- The `RetrieveOptions` type of qaLib.ts. -/
structure RetrieveOptions where
  domainFilter : Option Domain
  ensureTerms : Option (List String)
deriving DecidableEq, Repr

/-- A scored candidate: the source spreads `{...rec, score}`.  The underlying
chunk is kept in the `record` field (spreading has no Lean analogue). -/
structure Scored where
  record : RecordT
  score : ℚ
deriving DecidableEq, Repr

/-- Character-wise lowercasing, modelling JavaScript `String.prototype.toLowerCase`
(the keyword tables only use basic latin, which `Char.toLower` covers). -/
def toLowerCase (s : String) : String :=
  String.mk (s.data.map Char.toLower)

/-- Contiguous-substring occurrence test on character lists: `containsSub hay needle`
is true iff `needle` occurs as a contiguous run inside `hay`. -/
def containsSub : List Char → List Char → Bool
  | [], needle => needle.isEmpty
  | c :: t, needle => needle.isPrefixOf (c :: t) || containsSub t needle

/-- Model of JavaScript `s.includes(t)`: substring containment. -/
def includes (s t : String) : Bool :=
  containsSub s.data t.data

/-- The fixed personal-indicator keyword table of `classifyQuestion` (qaLib.ts). -/
def personalKeys : List String :=
  ["hobby", "hobbies", "interest", "interests", "free time", "outside work",
   "outside of work", "weekend", "leisure", "music", "books", "reading",
   "travel", "sports", "volunteer", "volunteering", "hike", "gaming",
   "family", "pets", "art", "photography"]

/-- The fixed resume-indicator keyword table of `classifyQuestion` (qaLib.ts). -/
def resumeKeys : List String :=
  ["resume", "cv", "experience", "work", "role", "title", "employer",
   "company", "education", "skill", "project", "years", "responsibil",
   "achievement"]

/-- `classifyQuestion` of qaLib.ts: lowercase the question, test substring
containment against the two keyword tables, and combine the two flags. -/
def classifyQuestion (q : String) : Hint :=
  let s := toLowerCase q
  let isPersonal := personalKeys.any (fun k => includes s k)
  let isResume := resumeKeys.any (fun k => includes s k)
  if isPersonal && isResume then Hint.both
  else if isPersonal then Hint.personal
  else if isResume then Hint.resume
  else Hint.unknown

/-- `ensureTermsForQuestion` of qaLib.ts: when the lowercased question mentions
"fynd", force-include the ratl.ai context terms. -/
def ensureTermsForQuestion (q : String) : List String :=
  let s := toLowerCase q
  if includes s ("fynd") then ["ratl.ai", "about ratl.ai"] else []

/-- The effective domain of a record: `r.domain || "resume"` in the source
(the defensive default for legacy records without a `domain` field). -/
def effectiveDomain (r : RecordT) : Domain :=
  r.domain.getD Domain.resume

/-- The stable descending sort by score of qaLib.ts,
`scored.sort((a, b) => b.score - a.score)` — JavaScript `Array.prototype.sort`
is stable, and the comparator orders by score descending; `List.mergeSort` is
the stable sort realizing it. -/
def sortByScoreDesc (l : List Scored) : List Scored :=
  l.mergeSort (fun a b => decide (b.score ≤ a.score))

/-- The de-duplication by `id` (first occurrence wins) of qaLib.ts: the
`seen : Set<number>` / `matches.filter` loop, with the mutable set made an
explicit accumulator. -/
def dedupById (seen : List Nat) : List Scored → List Scored
  | [] => []
  | m :: rest =>
    if m.record.id ∈ seen then dedupById seen rest
    else m :: dedupById (m.record.id :: seen) rest

/-- The text-matching predicate of the ensure-term promotion step:
`ensure.some((t) => r.text.toLowerCase().includes(t))` where `ensure` is the
list of already-lowercased terms. -/
def matchesEnsure (ensure : List String) (r : Scored) : Bool :=
  ensure.any (fun t => includes (toLowerCase r.record.text) t)

/-- Citation assignment of qaLib.ts: `final.map((r, i) => ({...r, cid: "C"+(i+1)}))`.
`assignCidsFrom i l` tags `l` with citation ids `C i, C (i+1), ...`. -/
def assignCidsFrom : Nat → List Scored → List (Scored × String)
  | _, [] => []
  | i, r :: rest => (r, "C" ++ toString i) :: assignCidsFrom (i + 1) rest

/-- Positional citation ids `C1..C|l|` in output order. -/
def assignCids (l : List Scored) : List (Scored × String) :=
  assignCidsFrom 1 l

/-- The retrieval pipeline `retrieveInternal` of qaLib.ts, with the two
external-I/O steps factored out as parameters: the index payload (`loadIndex`)
is the `payload` argument, and the cosine score against the embedded query
(`cosine(qnorm, rec.embedding)`) is the `score` argument.  Everything else  —
domain filtering with the `"resume"` default, the empty-filter guard, the
stable descending sort, ensure-term promotion with de-duplication by id,
exclusion of already-placed ids, truncation to `k` and positional citation
ids — mirrors the source line by line. -/
def retrieveInternal (score : RecordT → ℚ) (payload : List RecordT) (k : Nat)
    (opts : RetrieveOptions) : List (Scored × String) :=
  let filtered := match opts.domainFilter with
    | some d => payload.filter (fun r => decide (effectiveDomain r = d))
    | none => payload
  if filtered.length = 0 then []
  else
    let scored := filtered.map (fun rec => Scored.mk rec (score rec))
    let sorted := sortByScoreDesc scored
    let ensure := (opts.ensureTerms.getD []).map toLowerCase
    let ensured := if 0 < ensure.length then
        dedupById [] (sorted.filter (matchesEnsure ensure))
      else []
    let seen := ensured.map (fun e => e.record.id)
    let rest := sorted.filter (fun r => decide (r.record.id ∉ seen))
    assignCids ((ensured ++ rest).take k)

/-- The retrieval-routing portion of `answer` in qaLib.ts (the construction of
`top`): derive ensure terms and a domain hint from the question, then apply the
routing policy — ensure terms present ⇒ unfiltered retrieval passing them;
classified personal ⇒ personal-filtered retrieval with one unfiltered retry on
an empty result; classified resume ⇒ resume-filtered retrieval, no fallback;
otherwise unfiltered.  The chat-completion call that consumes `top` is an
external collaborator and out of scope. -/
def answerRouting (score : RecordT → ℚ) (payload : List RecordT)
    (question : String) (k : Nat) : List (Scored × String) :=
  let domainHint := classifyQuestion question
  let ensure := ensureTermsForQuestion question
  if 0 < ensure.length then
    retrieveInternal score payload k (RetrieveOptions.mk none (some ensure))
  else if domainHint = Hint.personal then
    let top := retrieveInternal score payload k
      (RetrieveOptions.mk (some Domain.personal) none)
    if top.length = 0 then
      retrieveInternal score payload k (RetrieveOptions.mk none none)
    else top
  else if domainHint = Hint.resume then
    retrieveInternal score payload k (RetrieveOptions.mk (some Domain.resume) none)
  else
    retrieveInternal score payload k (RetrieveOptions.mk none none)

/-- Modelled from the spec's words (the §9 open question), for comparison with
`retrieveInternal`: the identical pipeline except that the ensure-term matches
are collected by scanning the full unsorted candidate set (`scored`) instead
of the score-sorted list. -/
def retrieveEnsureFromUnsorted (score : RecordT → ℚ) (payload : List RecordT)
    (k : Nat) (opts : RetrieveOptions) : List (Scored × String) :=
  let filtered := match opts.domainFilter with
    | some d => payload.filter (fun r => decide (effectiveDomain r = d))
    | none => payload
  if filtered.length = 0 then []
  else
    let scored := filtered.map (fun rec => Scored.mk rec (score rec))
    let sorted := sortByScoreDesc scored
    let ensure := (opts.ensureTerms.getD []).map toLowerCase
    let ensured := if 0 < ensure.length then
        dedupById [] (scored.filter (matchesEnsure ensure))
      else []
    let seen := ensured.map (fun e => e.record.id)
    let rest := sorted.filter (fun r => decide (r.record.id ∉ seen))
    assignCids ((ensured ++ rest).take k)

/-- Euclidean norm of a vector as computed by `normalize` in qaLib.ts and
buildIndex.ts: `Math.sqrt(vec.reduce((s, v) => s + v * v, 0))`, idealized over
the reals. -/
noncomputable def vecNorm (vec : List ℝ) : ℝ :=
  Real.sqrt (vec.foldl (fun s v => s + v * v) 0)

/-- The `normalize` function of qaLib.ts and buildIndex.ts:
`const n = Math.sqrt(...) || 1e-12; return vec.map(v => v / n)`.  Over the
reals the JavaScript `|| 1e-12` fallback fires exactly when the norm is `0`
(`0` is the only falsy value a real-valued norm can take). -/
noncomputable def normalize (vec : List ℝ) : List ℝ :=
  let n := if vecNorm vec = 0 then 1e-12 else vecNorm vec
  vec.map (fun v => v / n)

/-- Modelled from the spec's words, for comparison only: the claimed
normalization `v / max(‖v‖, 1e-12)`. -/
noncomputable def normalizeSpecMax (vec : List ℝ) : List ℝ :=
  vec.map (fun v => v / max (vecNorm vec) 1e-12)

/-- The two index artifact paths recognized by qaLib.ts: the primary
`index/knowledge.index.json` and the legacy fallback `index/resume.index.json`. -/
inductive IndexPath
  | knowledge
  | fallbackResume
deriving DecidableEq, Repr

/-- The file system as seen by `loadIndex`: the contents (if any) at each of
the two recognized paths.  `existsSync p` is `(contents p).isSome`. -/
structure FileSystem where
  contents : IndexPath → Option String

/-- `resolveIndexPath` of qaLib.ts: the primary path when it exists, the
legacy fallback otherwise. -/
def resolveIndexPath (fs : FileSystem) : IndexPath :=
  if (fs.contents IndexPath.knowledge).isSome then IndexPath.knowledge
  else IndexPath.fallbackResume

/-- Outcome of `JSON.parse(raw) as RecordT[]` abstracted as an oracle: the
raw string either deserializes to a non-array value or to an array of
records. -/
inductive ParsedJson
  | notArray
  | arr (rs : List RecordT)

/-- `loadIndex` of qaLib.ts, instrumented with the list of paths it reads:
resolve the path, read it (a missing file makes `readFile` throw), parse, and
reject a non-array or empty payload with the "Index is empty" error.  The
second component records every path passed to `readFile`. -/
def loadIndex (parse : String → ParsedJson) (fs : FileSystem) :
    Except String (List RecordT) × List IndexPath :=
  let pathToUse := resolveIndexPath fs
  match fs.contents pathToUse with
  | none => (Except.error ("ENOENT: no such file"), [pathToUse])
  | some raw =>
    match parse raw with
    | ParsedJson.notArray =>
        (Except.error ("Index is empty. Run: npm run index:build"), [pathToUse])
    | ParsedJson.arr [] =>
        (Except.error ("Index is empty. Run: npm run index:build"), [pathToUse])
    | ParsedJson.arr rs => (Except.ok rs, [pathToUse])

/-- Whitespace-trimming on character lists: strip leading and trailing
whitespace, modelling JavaScript `String.prototype.trim`. -/
def trimChars (cs : List Char) : List Char :=
  (((cs.dropWhile Char.isWhitespace).reverse.dropWhile Char.isWhitespace)).reverse

/-- Model of JavaScript `s.trim()`. -/
def trimStr (s : String) : String :=
  String.mk (trimChars s.data)

/-- `chunkText` of buildIndex.ts with the external
`RecursiveCharacterTextSplitter` abstracted as the `split` parameter: the
post-processing trims each produced chunk and discards any whose trimmed
length is ≤ 50: `chunks.map(c => c.trim()).filter(c => c.length > 50)`. -/
def chunkText (split : String → List String) (text : String) : List String :=
  ((split text).map trimStr).filter (fun c => decide (50 < c.length))

/-- One source document as assembled by `loadDocuments` in buildIndex.ts. -/
structure Doc where
  text : String
  source : String
  domain : Domain

/-- The record-construction core of `buildIndex` in buildIndex.ts: chunk each
document keeping per-chunk metadata, embed each chunk (the batched external
embedding call plus normalization is abstracted as `embed`, order-preserving),
and assemble records with ids assigned by position:
`records = chunkTexts.map((ch, i) => ({id: i, text: ch, source: metas[i].source,
domain: metas[i].domain, embedding: embeddings[i]}))`. -/
def buildIndexRecords (split : String → List String) (embed : String → List ℚ)
    (docs : List Doc) : List RecordT :=
  let chunkMeta := docs.flatMap
    (fun d => (chunkText split d.text).map (fun ch => (ch, d.source, d.domain)))
  assignIds embed 0 chunkMeta
where
  /-- Assemble records with consecutive ids starting at `start`, mirroring the
  positional `id: i` / `metas[i]` / `embeddings[i]` alignment of the source. -/
  assignIds (embed : String → List ℚ) (start : Nat) :
      List (String × String × Domain) → List RecordT
    | [] => []
    | (ch, src, dom) :: rest =>
        RecordT.mk start ch src (some dom) (embed ch) ::
          assignIds embed (start + 1) rest

/-! ### General lemmas about the embedded operations -/

theorem containsSub_iff_infix (hay needle : List Char) :
    containsSub hay needle = true ↔ needle <:+: hay := by
  induction hay with
  | nil => simp [containsSub, List.isEmpty_iff]
  | cons c t ih =>
    simp [containsSub, Bool.or_eq_true, List.isPrefixOf_iff_prefix, ih,
      List.infix_cons_iff]

theorem includes_trans {s t u : String} (h1 : includes s t = true)
    (h2 : includes t u = true) : includes s u = true := by
  rw [includes, containsSub_iff_infix] at h1 h2 ⊢
  exact h2.trans h1

theorem mergeSort_pair {α : Type} {le : α → α → Bool}
    (htrans : ∀ (a b c : α), le a b → le b c → le a c)
    (htotal : ∀ (a b : α), le a b || le b a) (x y : α) :
    [x, y].mergeSort le = if le x y then [x, y] else [y, x] := by
  split
  case isTrue h =>
    exact List.mergeSort_of_sorted (by simp [List.pairwise_cons, h])
  case isFalse h =>
    obtain ⟨l₁, l₂, h1, h2, h3⟩ := List.mergeSort_cons htrans htotal x [y]
    rw [List.mergeSort_singleton] at h2
    cases l₁ with
    | nil =>
      exfalso
      have hs := List.sorted_mergeSort htrans htotal (l := [x, y])
      rw [h1] at hs
      simp at h2
      subst h2
      simp [List.pairwise_cons] at hs
      exact h (by simpa using hs)
    | cons a l₁' =>
      rw [List.cons_append] at h2
      injection h2 with ha htail
      obtain ⟨hl1, hl2⟩ := List.append_eq_nil.mp htail.symm
      subst ha hl1 hl2
      simpa using h1

theorem mem_dedupById {seen : List Nat} {l : List Scored} {x : Scored}
    (h : x ∈ dedupById seen l) : x ∈ l := by
  induction l generalizing seen with
  | nil => simp [dedupById] at h
  | cons m rest ih =>
    rw [dedupById] at h
    split at h
    · exact List.mem_cons_of_mem m (ih h)
    · rcases List.mem_cons.mp h with h' | h'
      · exact h' ▸ List.mem_cons_self m rest
      · exact List.mem_cons_of_mem m (ih h')

theorem dedupById_eq_self {l : List Scored} (seen : List Nat)
    (hn : (l.map (fun e => e.record.id)).Nodup)
    (hd : ∀ e ∈ l, e.record.id ∉ seen) : dedupById seen l = l := by
  induction l generalizing seen with
  | nil => rfl
  | cons m rest ih =>
    rw [dedupById, if_neg (hd m (List.mem_cons_self m rest))]
    congr 1
    refine ih (m.record.id :: seen) (List.Nodup.of_cons hn) ?_
    intro e he
    simp only [List.mem_cons]
    rintro (heq | hmem)
    · have : e.record.id ∈ rest.map (fun e => e.record.id) :=
        List.mem_map_of_mem _ he
      rw [heq] at this
      exact (List.nodup_cons.mp hn).1 this
    · exact hd e (List.mem_cons_of_mem m he) hmem

theorem assignCidsFrom_map_fst (i : Nat) (l : List Scored) :
    (assignCidsFrom i l).map Prod.fst = l := by
  induction l generalizing i with
  | nil => rfl
  | cons r rest ih => simp [assignCidsFrom, ih]

theorem assignCids_map_fst (l : List Scored) :
    (assignCids l).map Prod.fst = l :=
  assignCidsFrom_map_fst 1 l

theorem mem_fst_of_mem_assignCids {l : List Scored} {x : Scored × String}
    (h : x ∈ assignCids l) : x.1 ∈ l := by
  have := List.mem_map_of_mem Prod.fst h
  rwa [assignCids_map_fst] at this

theorem retrieveInternal_domainFilter_empty (score : RecordT → ℚ)
    (payload : List RecordT) (k : Nat) (d : Domain) (et : Option (List String))
    (h : payload.filter (fun r => decide (effectiveDomain r = d)) = []) :
    retrieveInternal score payload k (RetrieveOptions.mk (some d) et) = [] := by
  simp [retrieveInternal, h]

/-- With no ensure terms the pipeline reduces to sort-truncate-cite over the
(possibly domain-filtered) candidates. -/
theorem retrieveInternal_noEnsure (score : RecordT → ℚ) (payload : List RecordT)
    (k : Nat) (df : Option Domain) :
    retrieveInternal score payload k (RetrieveOptions.mk df none) =
      assignCids ((sortByScoreDesc
        ((match df with
          | some d => payload.filter (fun r => decide (effectiveDomain r = d))
          | none => payload).map
            (fun rec => Scored.mk rec (score rec)))).take k) := by
  rw [retrieveInternal]
  split
  case isTrue h =>
    rw [List.length_eq_zero] at h
    simp only [h, List.map_nil, sortByScoreDesc, List.mergeSort_nil,
      List.take_nil]
    rfl
  case isFalse h =>
    simp only [Option.getD_none, List.map_nil, List.length_nil,
      Nat.lt_irrefl, if_false]
    rw [List.filter_eq_self.mpr (by intro a _; simp), List.nil_append]

/-- With a non-empty ensure-term list (and no domain filter) the pipeline
reduces to ensured-matches-first composition. -/
theorem retrieveInternal_ensure_formula (score : RecordT → ℚ)
    (payload : List RecordT) (k : Nat) (terms : List String) (ht : terms ≠ []) :
    retrieveInternal score payload k (RetrieveOptions.mk none (some terms)) =
      (let sorted := sortByScoreDesc
        (payload.map (fun rec => Scored.mk rec (score rec)));
      let ens := dedupById []
        (sorted.filter (matchesEnsure (terms.map toLowerCase)));
      assignCids ((ens ++ sorted.filter
        (fun r =>
          decide (r.record.id ∉ ens.map (fun e => e.record.id)))).take k)) := by
  rw [retrieveInternal]
  split
  case isTrue h =>
    rw [List.length_eq_zero] at h
    have hp : payload = [] := h
    subst hp
    simp [sortByScoreDesc, dedupById, assignCids, assignCidsFrom]
  case isFalse h =>
    simp only [Option.getD_some]
    rw [if_pos]
    simp only [List.length_map]
    exact List.length_pos.mpr ht

/-! ### Claim C4 -/

/-- C4: `classifyQuestion` lowercases the question and tests substring
containment against the two fixed keyword tables, which are disjoint as sets
of strings; it returns `both` when both tables have a matching keyword,
`personal` when only the personal table does, `resume` when only the resume
table does, and `unknown` when neither does. -/
theorem classifyQuestion_spec :
    (∀ s ∈ personalKeys, s ∉ resumeKeys) ∧
    ∀ q : String,
      (classifyQuestion q = Hint.both ↔
        (∃ kp ∈ personalKeys, includes (toLowerCase q) kp = true) ∧
        (∃ kr ∈ resumeKeys, includes (toLowerCase q) kr = true)) ∧
      (classifyQuestion q = Hint.personal ↔
        (∃ kp ∈ personalKeys, includes (toLowerCase q) kp = true) ∧
        ¬(∃ kr ∈ resumeKeys, includes (toLowerCase q) kr = true)) ∧
      (classifyQuestion q = Hint.resume ↔
        ¬(∃ kp ∈ personalKeys, includes (toLowerCase q) kp = true) ∧
        (∃ kr ∈ resumeKeys, includes (toLowerCase q) kr = true)) ∧
      (classifyQuestion q = Hint.unknown ↔
        ¬(∃ kp ∈ personalKeys, includes (toLowerCase q) kp = true) ∧
        ¬(∃ kr ∈ resumeKeys, includes (toLowerCase q) kr = true)) := by
  refine ⟨by decide, fun q => ?_⟩
  by_cases hp : personalKeys.any (fun k => includes (toLowerCase q) k) = true <;>
    by_cases hr : resumeKeys.any (fun k => includes (toLowerCase q) k) = true <;>
      simp [classifyQuestion, ← List.any_eq_true, hp, hr]

/-- Witness for C4: "hobby" is only a personal keyword, and a question that
matches only the personal table classifies as `personal`. -/
theorem classifyQuestion_spec_witness :
    ("hobby" ∉ resumeKeys) ∧
      classifyQuestion ("Tell me about your hobbies") = Hint.personal :=
  ⟨classifyQuestion_spec.1 ("hobby") (by decide),
   ((classifyQuestion_spec.2 ("Tell me about your hobbies")).2.1).mpr
     (by decide)⟩

/-! ### Claim C10 -/

/-- C10: a question whose lowercase form contains "outside work" (or
"outside of work") classifies as `both`, never `personal`: both phrases are
personal keywords, but they contain the resume keyword "work" as a substring,
so substring matching triggers both tables at once. -/
theorem classifyQuestion_outsideWork_both :
    ∀ q : String,
      includes (toLowerCase q) ("outside work") = true ∨
        includes (toLowerCase q) ("outside of work") = true →
      classifyQuestion q = Hint.both := by
  intro q h
  have hp : personalKeys.any (fun k => includes (toLowerCase q) k) = true := by
    rcases h with h | h
    · exact List.any_eq_true.mpr ⟨"outside work", by decide, h⟩
    · exact List.any_eq_true.mpr ⟨"outside of work", by decide, h⟩
  have hw : includes (toLowerCase q) ("work") = true := by
    rcases h with h | h
    · exact includes_trans h (by decide)
    · exact includes_trans h (by decide)
  have hr : resumeKeys.any (fun k => includes (toLowerCase q) k) = true :=
    List.any_eq_true.mpr ⟨"work", by decide, hw⟩
  simp [classifyQuestion, hp, hr]

/-- Witness for C10 at a concrete question containing "outside work". -/
theorem classifyQuestion_outsideWork_both_witness :
    classifyQuestion ("What do you do outside work?") = Hint.both :=
  classifyQuestion_outsideWork_both ("What do you do outside work?")
    (Or.inl (by decide))

/-! ### Claim C5 -/

/-- C5: with a domain filter, retrieval keeps exactly the records whose
effective domain (the `domain` field, defaulting to resume when absent)
equals the filter: an empty filtered set yields the empty result (no failure),
every returned record matches the filter, and when `k` covers the whole
payload every matching record is returned. -/
theorem retrieve_domainFilter_spec :
    ∀ (score : RecordT → ℚ) (payload : List RecordT) (k : Nat) (d : Domain),
      (payload.filter (fun r => decide (effectiveDomain r = d)) = [] →
        retrieveInternal score payload k (RetrieveOptions.mk (some d) none) = []) ∧
      (∀ x ∈ retrieveInternal score payload k (RetrieveOptions.mk (some d) none),
        effectiveDomain x.1.record = d) ∧
      (payload.length ≤ k →
        ∀ r ∈ payload, effectiveDomain r = d →
          Scored.mk r (score r) ∈
            (retrieveInternal score payload k
              (RetrieveOptions.mk (some d) none)).map Prod.fst) := by
  intro score payload k d
  refine ⟨retrieveInternal_domainFilter_empty score payload k d none, ?_, ?_⟩
  · intro x hx
    rw [retrieveInternal_noEnsure] at hx
    have h1 : x.1 ∈ (sortByScoreDesc
        ((payload.filter (fun r => decide (effectiveDomain r = d))).map
          (fun rec => Scored.mk rec (score rec)))).take k :=
      mem_fst_of_mem_assignCids hx
    have h2 := List.take_subset _ _ h1
    rw [sortByScoreDesc, List.mem_mergeSort] at h2
    obtain ⟨rec, hrec, hx1⟩ := List.mem_map.mp h2
    have hpred := (List.mem_filter.mp hrec).2
    rw [← hx1]
    exact of_decide_eq_true hpred
  · intro hk r hr hd
    rw [retrieveInternal_noEnsure, assignCids_map_fst]
    have hmemf : r ∈ payload.filter (fun r => decide (effectiveDomain r = d)) :=
      List.mem_filter.mpr ⟨hr, decide_eq_true hd⟩
    have hlen : ((payload.filter
        (fun r => decide (effectiveDomain r = d))).map
          (fun rec => Scored.mk rec (score rec))).length ≤ k := by
      rw [List.length_map]
      exact le_trans (List.length_filter_le _ _) hk
    rw [List.take_of_length_le (by simpa [sortByScoreDesc] using hlen)]
    rw [sortByScoreDesc, List.mem_mergeSort]
    exact List.mem_map_of_mem _ hmemf

/-- Witness for C5: a two-record payload where only one record carries the
personal domain. -/
theorem retrieve_domainFilter_spec_witness :
    (∀ x ∈ retrieveInternal (fun _ => 0)
        [RecordT.mk 0 ("a") ("s") (some Domain.personal) [],
         RecordT.mk 1 ("b") ("s") none []] 5
        (RetrieveOptions.mk (some Domain.personal) none),
      effectiveDomain x.1.record = Domain.personal) ∧
    Scored.mk (RecordT.mk 0 ("a") ("s") (some Domain.personal) []) 0 ∈
      (retrieveInternal (fun _ => 0)
        [RecordT.mk 0 ("a") ("s") (some Domain.personal) [],
         RecordT.mk 1 ("b") ("s") none []] 5
        (RetrieveOptions.mk (some Domain.personal) none)).map Prod.fst :=
  ⟨(retrieve_domainFilter_spec (fun _ => 0) _ 5 Domain.personal).2.1,
   (retrieve_domainFilter_spec (fun _ => 0) _ 5 Domain.personal).2.2
     (by decide)
     (RecordT.mk 0 ("a") ("s") (some Domain.personal) [])
     (by simp)
     (by decide)⟩

/-! ### Claim C9 -/

/-- C9: retrieval is a pure function — two invocations at identical arguments
return identical result sequences — and the sort it uses is stable: candidates
with equal scores keep their original relative order. -/
theorem retrieve_deterministic_stable :
    (∀ (score : RecordT → ℚ) (payload : List RecordT) (k : Nat)
        (opts : RetrieveOptions),
      retrieveInternal score payload k opts =
        retrieveInternal score payload k opts) ∧
    (∀ (l : List Scored) (a b : Scored), a.score = b.score →
      [a, b].Sublist l → [a, b].Sublist (sortByScoreDesc l)) := by
  refine ⟨fun _ _ _ _ => rfl, fun l a b hs hsub => ?_⟩
  rw [sortByScoreDesc]
  apply List.pair_sublist_mergeSort
  · intro x y z hxy hyz
    simp only [decide_eq_true_eq] at hxy hyz ⊢
    exact le_trans hyz hxy
  · intro x y
    simpa using le_total y.score x.score
  · simp [hs]
  · exact hsub

/-- Witness for C9: two equal-score candidates stay in original order through
the sort. -/
theorem retrieve_deterministic_stable_witness :
    [Scored.mk (RecordT.mk 0 ("a") ("s") none []) 1,
     Scored.mk (RecordT.mk 1 ("b") ("s") none []) 1].Sublist
      (sortByScoreDesc
        [Scored.mk (RecordT.mk 0 ("a") ("s") none []) 1,
         Scored.mk (RecordT.mk 1 ("b") ("s") none []) 1]) :=
  retrieve_deterministic_stable.2 _ _ _ rfl (List.Sublist.refl _)

/-! ### Claim C3 -/

/-- C3: the answer orchestration follows the routing policy exactly —
non-empty ensure terms ⇒ unfiltered retrieval passing them; classified
personal ⇒ personal-filtered retrieval with exactly one unfiltered retry when
it is empty; classified resume ⇒ resume-filtered with no fallback; both or
unknown ⇒ unfiltered.  Consequently a personal question with zero
personal-domain candidates yields the unfiltered retrieval result. -/
theorem answer_routing_spec :
    ∀ (score : RecordT → ℚ) (payload : List RecordT) (q : String) (k : Nat),
      (ensureTermsForQuestion q ≠ [] →
        answerRouting score payload q k =
          retrieveInternal score payload k
            (RetrieveOptions.mk none (some (ensureTermsForQuestion q)))) ∧
      (ensureTermsForQuestion q = [] → classifyQuestion q = Hint.personal →
        (retrieveInternal score payload k
            (RetrieveOptions.mk (some Domain.personal) none) = [] →
          answerRouting score payload q k =
            retrieveInternal score payload k (RetrieveOptions.mk none none)) ∧
        (retrieveInternal score payload k
            (RetrieveOptions.mk (some Domain.personal) none) ≠ [] →
          answerRouting score payload q k =
            retrieveInternal score payload k
              (RetrieveOptions.mk (some Domain.personal) none))) ∧
      (ensureTermsForQuestion q = [] → classifyQuestion q = Hint.resume →
        answerRouting score payload q k =
          retrieveInternal score payload k
            (RetrieveOptions.mk (some Domain.resume) none)) ∧
      (ensureTermsForQuestion q = [] →
        (classifyQuestion q = Hint.both ∨ classifyQuestion q = Hint.unknown) →
        answerRouting score payload q k =
          retrieveInternal score payload k (RetrieveOptions.mk none none)) ∧
      (ensureTermsForQuestion q = [] → classifyQuestion q = Hint.personal →
        payload.filter
          (fun r => decide (effectiveDomain r = Domain.personal)) = [] →
        answerRouting score payload q k =
          retrieveInternal score payload k (RetrieveOptions.mk none none)) := by
  intro score payload q k
  refine ⟨fun h => ?_, fun h0 hc => ⟨fun he => ?_, fun hne => ?_⟩,
    fun h0 hc => ?_, fun h0 hc => ?_, fun h0 hc hfe => ?_⟩
  · simp [answerRouting, List.length_pos.mpr h]
  · simp [answerRouting, h0, hc, he]
  · simp [answerRouting, h0, hc, List.length_eq_zero, hne]
  · simp [answerRouting, h0, hc]
  · rcases hc with hc | hc <;> simp [answerRouting, h0, hc]
  · have he := retrieveInternal_domainFilter_empty score payload k
      Domain.personal none hfe
    simp [answerRouting, h0, hc, he]

/-- Witness for C3: a personal question over a payload with no
personal-domain record routes to the unfiltered retrieval. -/
theorem answer_routing_spec_witness :
    answerRouting (fun _ => 0) [RecordT.mk 0 ("a") ("s") none []]
        ("Tell me about your hobbies") 5 =
      retrieveInternal (fun _ => 0) [RecordT.mk 0 ("a") ("s") none []] 5
        (RetrieveOptions.mk none none) :=
  (answer_routing_spec (fun _ => 0) [RecordT.mk 0 ("a") ("s") none []]
      ("Tell me about your hobbies") 5).2.2.2.2
    (by decide) (by decide) (by decide)

/-! ### Claim C1 -/

/-- C1: with a non-empty ensure-term list the result is exactly the ensured
matches first — the candidates whose text contains any case-folded ensure term,
in score-sorted relative order, deduplicated by id with the first occurrence
winning — followed by the remaining score-sorted candidates excluding those
already placed, truncated to `k`, with citation ids assigned positionally;
in particular a low-scoring record containing an ensure term precedes a
higher-scoring record that does not, and is cited `C1`. -/
theorem retrieve_ensure_precedence :
    (∀ (score : RecordT → ℚ) (payload : List RecordT) (k : Nat)
        (terms : List String), terms ≠ [] →
      retrieveInternal score payload k (RetrieveOptions.mk none (some terms)) =
        (let sorted := sortByScoreDesc
          (payload.map (fun rec => Scored.mk rec (score rec)));
        let ens := dedupById []
          (sorted.filter (matchesEnsure (terms.map toLowerCase)));
        assignCids ((ens ++ sorted.filter
          (fun r =>
            decide (r.record.id ∉ ens.map (fun e => e.record.id)))).take k))) ∧
    (∀ (score : RecordT → ℚ) (a b : RecordT) (k : Nat) (terms : List String)
        (t : String), t ∈ terms →
      includes (toLowerCase a.text) (toLowerCase t) = true →
      (∀ u ∈ terms, includes (toLowerCase b.text) (toLowerCase u) = false) →
      a.id ≠ b.id → score a < score b → 0 < k →
      (retrieveInternal score [b, a] k
        (RetrieveOptions.mk none (some terms))).head? =
          some (Scored.mk a (score a), "C1")) := by
  refine ⟨retrieveInternal_ensure_formula, ?_⟩
  intro score a b k terms t ht hmatch hb hne hlt hk
  have hterms : terms ≠ [] := List.ne_nil_of_mem ht
  rw [retrieveInternal_ensure_formula score [b, a] k terms hterms]
  have hsorted : sortByScoreDesc
      [Scored.mk b (score b), Scored.mk a (score a)] =
      [Scored.mk b (score b), Scored.mk a (score a)] := by
    rw [sortByScoreDesc]
    apply List.mergeSort_of_sorted
    simp [List.pairwise_cons]
    exact le_of_lt hlt
  have hmB : matchesEnsure (terms.map toLowerCase)
      (Scored.mk b (score b)) = false := by
    rw [matchesEnsure, List.any_map]
    refine List.any_eq_false.mpr (fun u hu => ?_)
    simpa using hb u hu
  have hmA : matchesEnsure (terms.map toLowerCase)
      (Scored.mk a (score a)) = true := by
    rw [matchesEnsure, List.any_map]
    refine List.any_eq_true.mpr ⟨t, ht, ?_⟩
    simpa using hmatch
  obtain ⟨j, rfl⟩ : ∃ j, k = j + 1 := ⟨k - 1, by omega⟩
  simp only [List.map_cons, List.map_nil, hsorted]
  rw [List.filter_cons_of_neg (by simp [hmB]),
    List.filter_cons_of_pos (by simp [hmA]), List.filter_nil]
  rw [dedupById, if_neg (by simp), dedupById]
  simp only [List.map_cons, List.map_nil]
  rw [List.filter_cons_of_pos (by simp [Ne.symm hne]),
    List.filter_cons_of_neg (by simp), List.filter_nil]
  simp only [assignCids, assignCidsFrom, List.cons_append, List.nil_append,
    List.take_succ_cons, List.head?_cons, Option.some.injEq, Prod.mk.injEq]
  exact ⟨trivial, by decide⟩

/-- Witness for C1: a low-scoring record whose text contains the ensure term
"ratl.ai" is placed first and cited C1, ahead of a higher-scoring
non-matching record. -/
theorem retrieve_ensure_precedence_witness :
    (retrieveInternal (fun r => (r.id : ℚ))
      [RecordT.mk 1 ("software engineer") ("s") none [],
       RecordT.mk 0 ("i work at ratl.ai") ("s") none []] 2
      (RetrieveOptions.mk none (some ["ratl.ai"]))).head? =
      some (Scored.mk (RecordT.mk 0 ("i work at ratl.ai") ("s") none [])
        (((0 : Nat) : ℚ)), "C1") :=
  retrieve_ensure_precedence.2 (fun r => (r.id : ℚ))
    (RecordT.mk 0 ("i work at ratl.ai") ("s") none [])
    (RecordT.mk 1 ("software engineer") ("s") none [])
    2 ["ratl.ai"] ("ratl.ai")
    (by decide) (by decide) (by decide) (by decide) (by decide) (by decide)

/-! ### Claim C2 -/

/-- Norm of the concrete vector `[1e-13]`. -/
theorem vecNorm_e13 : vecNorm [(1e-13 : ℝ)] = 1e-13 := by
  rw [vecNorm]
  simp only [List.foldl]
  rw [show (0 : ℝ) + 1e-13 * 1e-13 = (1e-13) ^ 2 by ring]
  rw [Real.sqrt_sq (by norm_num)]

/-- Counterexample to C2 as stated: on the vector `[1e-13]`, whose norm lies
strictly between `0` and `1e-12`, the code divides by the exact norm
(`|| 1e-12` only replaces a zero norm), not by `max(‖v‖, 1e-12)`. -/
theorem normalize_ne_specMax_counterexample :
    normalize [(1e-13 : ℝ)] ≠ normalizeSpecMax [(1e-13 : ℝ)] := by
  rw [normalize, normalizeSpecMax]
  simp only [vecNorm_e13]
  rw [if_neg (by norm_num)]
  simp only [List.map_cons, List.map_nil]
  intro h
  injection h with h1 h2
  rw [max_eq_right (by norm_num)] at h1
  norm_num at h1

/-- C2 (amended): `normalize` divides by the exact Euclidean norm whenever it
is non-zero and by `1e-12` exactly when the norm is zero (the JavaScript
`|| 1e-12` fallback); this agrees with the claimed `v / max(‖v‖, 1e-12)`
whenever the norm is `0` or at least `1e-12`, and the all-zero vector maps to
the all-zero vector (no NaN is produced). -/
theorem normalize_spec :
    (∀ v : List ℝ,
      (vecNorm v ≠ 0 → normalize v = v.map (fun x => x / vecNorm v)) ∧
      (vecNorm v = 0 → normalize v = v.map (fun x => x / 1e-12)) ∧
      (1e-12 ≤ vecNorm v ∨ vecNorm v = 0 →
        normalize v = normalizeSpecMax v)) ∧
    (∀ n : Nat, normalize (List.replicate n 0) = List.replicate n 0) := by
  constructor
  · intro v
    refine ⟨fun h => ?_, fun h => ?_, fun h => ?_⟩
    · rw [normalize, if_neg h]
    · rw [normalize, if_pos h]
    · rcases h with h | h
      · rw [normalize, if_neg (by intro h0; rw [h0] at h; norm_num at h),
          normalizeSpecMax, max_eq_left h]
      · rw [normalize, if_pos h, normalizeSpecMax, h,
          max_eq_right (by norm_num)]
  · intro n
    have hz : vecNorm (List.replicate n 0) = 0 := by
      rw [vecNorm]
      have hf : ∀ m, (List.replicate m (0 : ℝ)).foldl
          (fun s v => s + v * v) 0 = 0 := by
        intro m
        induction m with
        | zero => rfl
        | succ m ih => simpa [List.replicate_succ, List.foldl] using ih
      rw [hf n, Real.sqrt_zero]
    rw [normalize, if_pos hz]
    simp

/-- Witness for C2 at the concrete vector `[3, 4]` of norm `5`. -/
theorem normalize_spec_witness :
    normalize [(3 : ℝ), 4] = [3 / 5, 4 / 5] := by
  have h5 : vecNorm [(3 : ℝ), 4] = 5 := by
    rw [vecNorm]
    simp only [List.foldl]
    rw [show (0 : ℝ) + 3 * 3 + 4 * 4 = 5 ^ 2 by ring]
    rw [Real.sqrt_sq (by norm_num)]
  have := (normalize_spec.1 [(3 : ℝ), 4]).1 (by rw [h5]; norm_num)
  rw [this, h5]
  simp

/-! ### Claim C6 -/

/-- C6: `loadIndex` fails when the resolved artifact is absent or deserializes
to a non-array or an empty array; a successful load is always non-empty; the
legacy fallback path is resolved exactly when the primary path is absent; and
exactly one of the two paths is ever read. -/
theorem loadIndex_spec :
    ∀ (parse : String → ParsedJson) (fs : FileSystem),
      (loadIndex parse fs).2 = [resolveIndexPath fs] ∧
      (resolveIndexPath fs = IndexPath.fallbackResume ↔
        fs.contents IndexPath.knowledge = none) ∧
      (fs.contents (resolveIndexPath fs) = none →
        ∃ e, (loadIndex parse fs).1 = Except.error e) ∧
      (∀ raw, fs.contents (resolveIndexPath fs) = some raw →
        ((parse raw = ParsedJson.notArray ∨ parse raw = ParsedJson.arr []) →
          ∃ e, (loadIndex parse fs).1 = Except.error e) ∧
        (∀ rs, rs ≠ [] → parse raw = ParsedJson.arr rs →
          (loadIndex parse fs).1 = Except.ok rs)) ∧
      (∀ rs, (loadIndex parse fs).1 = Except.ok rs → rs ≠ []) := by
  intro parse fs
  refine ⟨?_, ?_, ?_, ?_, ?_⟩
  · rcases hc : fs.contents (resolveIndexPath fs) with _ | raw
    · simp [loadIndex, hc]
    · rcases hp : parse raw with _ | rs
      · simp [loadIndex, hc, hp]
      · rcases rs with _ | ⟨r, rest⟩ <;> simp [loadIndex, hc, hp]
  · rcases hk : fs.contents IndexPath.knowledge with _ | s <;>
      simp [resolveIndexPath, hk]
  · intro hc
    exact ⟨"ENOENT: no such file", by simp [loadIndex, hc]⟩
  · intro raw hc
    constructor
    · rintro (hp | hp) <;>
        exact ⟨"Index is empty. Run: npm run index:build",
          by simp [loadIndex, hc, hp]⟩
    · intro rs hne hp
      rcases rs with _ | ⟨r, rest⟩
      · exact absurd rfl hne
      · simp [loadIndex, hc, hp]
  · intro rs hok
    rcases hc : fs.contents (resolveIndexPath fs) with _ | raw
    · simp [loadIndex, hc] at hok
    · rcases hp : parse raw with _ | rs'
      · simp [loadIndex, hc, hp] at hok
      · rcases rs' with _ | ⟨r, rest⟩
        · simp [loadIndex, hc, hp] at hok
        · simp only [loadIndex, hc, hp] at hok
          intro hnil
          rw [hnil] at hok
          simp at hok

/-- Witness for C6: with the primary artifact absent, the fallback path is
resolved and a non-empty parse succeeds. -/
theorem loadIndex_spec_witness :
    (loadIndex (fun _ => ParsedJson.arr [RecordT.mk 0 ("t") ("s") none []])
      (FileSystem.mk (fun p => match p with
        | IndexPath.knowledge => none
        | IndexPath.fallbackResume => some ("raw")))).1 =
      Except.ok [RecordT.mk 0 ("t") ("s") none []] ∧
    resolveIndexPath (FileSystem.mk (fun p => match p with
        | IndexPath.knowledge => none
        | IndexPath.fallbackResume => some ("raw"))) =
      IndexPath.fallbackResume := by
  constructor
  · exact ((loadIndex_spec
      (fun _ => ParsedJson.arr [RecordT.mk 0 ("t") ("s") none []])
      (FileSystem.mk (fun p => match p with
        | IndexPath.knowledge => none
        | IndexPath.fallbackResume => some ("raw")))).2.2.2.1
          ("raw") rfl).2 _ (by simp) rfl
  · exact (loadIndex_spec
      (fun _ => ParsedJson.arr [RecordT.mk 0 ("t") ("s") none []])
      (FileSystem.mk (fun p => match p with
        | IndexPath.knowledge => none
        | IndexPath.fallbackResume => some ("raw")))).2.1.mpr rfl

/-! ### Claim C7 -/

theorem dropWhile_idem (p : Char → Bool) (l : List Char) :
    (l.dropWhile p).dropWhile p = l.dropWhile p := by
  induction l with
  | nil => rfl
  | cons a t ih =>
    by_cases h : p a
    · rw [List.dropWhile_cons_of_pos h]
      exact ih
    · rw [List.dropWhile_cons_of_neg h, List.dropWhile_cons_of_neg h]

theorem dropWhile_head_false {p : Char → Bool} {l : List Char} {c : Char}
    (h : (l.dropWhile p).head? = some c) : p c = false := by
  have hw := List.head?_dropWhile_not p l
  rw [h] at hw
  exact hw

theorem head?_of_isPre {l₁ l₂ : List Char} (h : l₁ <+: l₂) (hne : l₁ ≠ []) :
    l₂.head? = l₁.head? := by
  obtain ⟨t, rfl⟩ := h
  cases l₁ with
  | nil => exact absurd rfl hne
  | cons a l => rfl

theorem dropWhile_trimChars (cs : List Char) :
    (trimChars cs).dropWhile Char.isWhitespace = trimChars cs := by
  rcases hM : trimChars cs with _ | ⟨c, t⟩
  · rfl
  · have hpre : trimChars cs <+:
        ((cs.dropWhile Char.isWhitespace).reverse).reverse := by
      rw [trimChars]
      exact List.reverse_prefix.mpr (List.dropWhile_suffix _)
    rw [List.reverse_reverse, hM] at hpre
    have hh := head?_of_isPre hpre (by simp)
    rw [List.head?_cons] at hh
    have hc := dropWhile_head_false hh
    exact List.dropWhile_cons_of_neg (by simp [hc])

theorem dropWhile_reverse_trimChars (cs : List Char) :
    ((trimChars cs).reverse).dropWhile Char.isWhitespace =
      (trimChars cs).reverse := by
  rw [trimChars, List.reverse_reverse]
  exact dropWhile_idem _ _

theorem trimChars_idem (cs : List Char) :
    trimChars (trimChars cs) = trimChars cs := by
  conv_lhs => rw [trimChars]
  rw [dropWhile_trimChars cs, dropWhile_reverse_trimChars cs,
    List.reverse_reverse]

theorem trimStr_idem (s : String) : trimStr (trimStr s) = trimStr s :=
  congrArg String.mk (trimChars_idem s.data)

theorem mem_assignIds {embed : String → List ℚ} {start : Nat}
    {l : List (String × String × Domain)} {r : RecordT}
    (h : r ∈ buildIndexRecords.assignIds embed start l) :
    ∃ x ∈ l, r.text = x.1 := by
  induction l generalizing start with
  | nil => simp [buildIndexRecords.assignIds] at h
  | cons x rest ih =>
    rcases x with ⟨ch, src, dom⟩
    rw [buildIndexRecords.assignIds] at h
    rcases List.mem_cons.mp h with h' | h'
    · exact ⟨(ch, src, dom), List.mem_cons_self _ _, by rw [h']⟩
    · obtain ⟨y, hy, hr⟩ := ih h'
      exact ⟨y, List.mem_cons_of_mem _ hy, hr⟩

/-- C7: every record the build process writes to the index has
whitespace-trimmed text of length strictly greater than 50 characters. -/
theorem buildIndex_chunk_floor :
    ∀ (split : String → List String) (embed : String → List ℚ)
      (docs : List Doc) (r : RecordT),
      r ∈ buildIndexRecords split embed docs →
      50 < r.text.length ∧ trimStr r.text = r.text := by
  intro split embed docs r hr
  rw [buildIndexRecords] at hr
  obtain ⟨⟨ch, src, dom⟩, hx, htext⟩ := mem_assignIds hr
  obtain ⟨d, hd, hch⟩ := List.mem_flatMap.mp hx
  obtain ⟨c, hc, heq⟩ := List.mem_map.mp hch
  have hchc : ch = c := by
    have := congrArg Prod.fst heq
    simpa using this.symm
  have hfil := List.mem_filter.mp hc
  have hlen : 50 < c.length := of_decide_eq_true hfil.2
  obtain ⟨c0, _, hc0⟩ := List.mem_map.mp hfil.1
  have htc : r.text = c := by rw [htext]; exact hchc
  constructor
  · rw [htc]
    exact hlen
  · rw [htc, ← hc0]
    exact trimStr_idem c0

/-- Witness for C7 with a one-document, one-chunk build. -/
theorem buildIndex_chunk_floor_witness :
    50 < (RecordT.mk 0
      ("abcdefghijabcdefghijabcdefghijabcdefghijabcdefghijabcdefghij")
      ("doc.md") (some Domain.resume) []).text.length ∧
    trimStr (RecordT.mk 0
      ("abcdefghijabcdefghijabcdefghijabcdefghijabcdefghijabcdefghij")
      ("doc.md") (some Domain.resume) []).text =
      (RecordT.mk 0
        ("abcdefghijabcdefghijabcdefghijabcdefghijabcdefghijabcdefghij")
        ("doc.md") (some Domain.resume) []).text :=
  buildIndex_chunk_floor (fun s => [s]) (fun _ => [])
    [Doc.mk ("abcdefghijabcdefghijabcdefghijabcdefghijabcdefghijabcdefghij")
      ("doc.md") Domain.resume]
    (RecordT.mk 0
      ("abcdefghijabcdefghijabcdefghijabcdefghijabcdefghijabcdefghij")
      ("doc.md") (some Domain.resume) [])
    (by decide)

/-! ### Claim C8 -/

theorem sortByScoreDesc_pair (x y : Scored) :
    sortByScoreDesc [x, y] =
      if y.score ≤ x.score then [x, y] else [y, x] := by
  rw [sortByScoreDesc, mergeSort_pair
    (fun a b c hab hbc => by
      simp only [decide_eq_true_eq] at hab hbc ⊢
      exact le_trans hbc hab)
    (fun a b => by simpa using le_total b.score a.score)]
  by_cases h : y.score ≤ x.score <;> simp [h]

/-- Counterexample to C8 as stated: when more ensured matches exist than `k`,
scanning the score-sorted list keeps the highest-scoring match while scanning
the unsorted candidate set keeps the earliest match in payload order, so the
truncated result sets differ. -/
theorem retrieve_ensureScan_counterexample :
    (retrieveInternal (fun r => (r.id : ℚ))
        [RecordT.mk 0 ("xb") ("s") none [], RecordT.mk 1 ("xa") ("s") none []]
        1 (RetrieveOptions.mk none (some ["x"]))).map
        (fun x => x.1.record) = [RecordT.mk 1 ("xa") ("s") none []] ∧
    (retrieveEnsureFromUnsorted (fun r => (r.id : ℚ))
        [RecordT.mk 0 ("xb") ("s") none [], RecordT.mk 1 ("xa") ("s") none []]
        1 (RetrieveOptions.mk none (some ["x"]))).map
        (fun x => x.1.record) = [RecordT.mk 0 ("xb") ("s") none []] ∧
    RecordT.mk 1 ("xa") ("s") none [] ≠ RecordT.mk 0 ("xb") ("s") none [] := by
  refine ⟨?_, ?_, by decide⟩
  · simp +decide [retrieveInternal, sortByScoreDesc_pair, dedupById,
      assignCids, assignCidsFrom, matchesEnsure]
  · simp +decide [retrieveEnsureFromUnsorted, sortByScoreDesc_pair, dedupById,
      assignCids, assignCidsFrom, matchesEnsure]

theorem assignCids_map_record (l : List Scored) :
    (assignCids l).map (fun x => x.1.record) =
      l.map (fun s => s.record) := by
  conv_rhs => rw [← assignCids_map_fst l]
  rw [List.map_map]
  rfl

theorem ensureStage_perm (scored : List Scored) (k : Nat)
    (ensure : List String)
    (hnd : (scored.map (fun e => e.record.id)).Nodup)
    (hk : (scored.filter (matchesEnsure ensure)).length ≤ k) :
    (((if 0 < ensure.length then
        dedupById [] ((sortByScoreDesc scored).filter (matchesEnsure ensure))
      else []) ++
      (sortByScoreDesc scored).filter
        (fun r => decide (r.record.id ∉
          (if 0 < ensure.length then
            dedupById []
              ((sortByScoreDesc scored).filter (matchesEnsure ensure))
          else []).map (fun e => e.record.id)))).take k).Perm
    (((if 0 < ensure.length then
        dedupById [] (scored.filter (matchesEnsure ensure))
      else []) ++
      (sortByScoreDesc scored).filter
        (fun r => decide (r.record.id ∉
          (if 0 < ensure.length then
            dedupById [] (scored.filter (matchesEnsure ensure))
          else []).map (fun e => e.record.id)))).take k) := by
  by_cases he : 0 < ensure.length
  case neg =>
    simp only [if_neg he]
    exact List.Perm.refl _
  case pos =>
    simp only [if_pos he]
    have hperm : List.Perm (sortByScoreDesc scored) scored :=
      List.mergeSort_perm scored _
    have hidperm : List.Perm
        ((sortByScoreDesc scored).map (fun e => e.record.id))
        (scored.map (fun e => e.record.id)) := hperm.map _
    have hndL : ((sortByScoreDesc scored).map
        (fun e => e.record.id)).Nodup := hidperm.nodup_iff.mpr hnd
    have hm : List.Perm
        ((sortByScoreDesc scored).filter (matchesEnsure ensure))
        (scored.filter (matchesEnsure ensure)) := hperm.filter _
    have hnd1 : (((sortByScoreDesc scored).filter
        (matchesEnsure ensure)).map (fun e => e.record.id)).Nodup :=
      List.Nodup.sublist (List.Sublist.map _ (List.filter_sublist _)) hndL
    have hnd2 : ((scored.filter (matchesEnsure ensure)).map
        (fun e => e.record.id)).Nodup :=
      List.Nodup.sublist (List.Sublist.map _ (List.filter_sublist _)) hnd
    rw [dedupById_eq_self [] hnd1 (by simp),
      dedupById_eq_self [] hnd2 (by simp)]
    have hrest : (sortByScoreDesc scored).filter
        (fun r => decide (r.record.id ∉
          (((sortByScoreDesc scored).filter (matchesEnsure ensure)).map
            (fun e => e.record.id)))) =
        (sortByScoreDesc scored).filter
          (fun r => decide (r.record.id ∉
            ((scored.filter (matchesEnsure ensure)).map
              (fun e => e.record.id)))) := by
      refine List.filter_congr (fun a _ => ?_)
      exact decide_eq_decide.mpr (not_congr (hm.map _).mem_iff)
    rw [hrest]
    have hlen : ((sortByScoreDesc scored).filter
        (matchesEnsure ensure)).length =
        (scored.filter (matchesEnsure ensure)).length := hm.length_eq
    rw [List.take_append_eq_append_take, List.take_append_eq_append_take]
    rw [List.take_of_length_le (le_trans (le_of_eq hlen) hk),
      List.take_of_length_le hk, hlen]
    exact hm.append_right _

/-- C8 (amended): when the candidate ids are pairwise distinct and at most `k`
candidates match the ensure terms — so truncation never cuts into the ensured
block — scanning the score-sorted list and scanning the full unsorted
candidate set for ensure-term matches produce the same set of returned
records (the result lists are permutations of each other). -/
theorem retrieve_ensureScan_agree :
    ∀ (score : RecordT → ℚ) (payload : List RecordT) (k : Nat)
      (opts : RetrieveOptions),
      (payload.map RecordT.id).Nodup →
      (((match opts.domainFilter with
          | some d => payload.filter (fun r => decide (effectiveDomain r = d))
          | none => payload).map
            (fun rec => Scored.mk rec (score rec))).filter
          (matchesEnsure ((opts.ensureTerms.getD []).map toLowerCase))).length
        ≤ k →
      ((retrieveInternal score payload k opts).map
          (fun x => x.1.record)).Perm
        ((retrieveEnsureFromUnsorted score payload k opts).map
          (fun x => x.1.record)) := by
  intro score payload k opts hnd hk
  have hsubfil : List.Sublist (match opts.domainFilter with
      | some d => payload.filter (fun r => decide (effectiveDomain r = d))
      | none => payload) payload := by
    cases opts.domainFilter with
    | some d => exact List.filter_sublist _
    | none => exact List.Sublist.refl _
  by_cases hg : (match opts.domainFilter with
      | some d => payload.filter (fun r => decide (effectiveDomain r = d))
      | none => payload).length = 0
  · simp only [retrieveInternal, retrieveEnsureFromUnsorted, if_pos hg]
    simp
  · simp only [retrieveInternal, retrieveEnsureFromUnsorted, if_neg hg]
    rw [assignCids_map_record, assignCids_map_record]
    refine List.Perm.map _ ?_
    refine ensureStage_perm _ k _ ?_ hk
    rw [List.map_map]
    exact List.Nodup.sublist (List.Sublist.map _ hsubfil) hnd

/-- Witness for C8's amended theorem at a concrete one-record index. -/
theorem retrieve_ensureScan_agree_witness :
    ((retrieveInternal (fun _ => 0) [RecordT.mk 0 ("x") ("s") none []] 1
        (RetrieveOptions.mk none (some ["x"]))).map
        (fun x => x.1.record)).Perm
      ((retrieveEnsureFromUnsorted (fun _ => 0)
        [RecordT.mk 0 ("x") ("s") none []] 1
        (RetrieveOptions.mk none (some ["x"]))).map
        (fun x => x.1.record)) :=
  retrieve_ensureScan_agree (fun _ => 0) _ 1 _ (by decide) (by decide)

end ResumeAgent
